import Mathlib

/-!
Verification of the alias table and substitution engine of jsh (`alias.c`).

C strings are modelled as `List Char` (the characters before the terminator);
the alias table (the linked list from `head` to `tail`) is a list of
(key, value) pairs in insertion order.  The opaque external predicate
`is_valid_cmd` is a parameter `P : List Char → List Char → Nat → Bool`.
Machine-integer overflow of the counters is unreachable at realistic sizes
and is not modelled; the counters are plain integers.
-/

namespace Jsh

/-- `EXIT_SUCCESS` of the C standard library. -/
def EXIT_SUCCESS : Nat := 0

/-- `EXIT_FAILURE` of the C standard library. -/
def EXIT_FAILURE : Nat := 1

/-- `MAX_ALIAS_VAL_LENGTH` from alias.c. -/
def MAX_ALIAS_VAL_LENGTH : Nat := 200

/-- `MAX_ALIAS_KEY_LENGTH` from alias.c. -/
def MAX_ALIAS_KEY_LENGTH : Nat := 50

/-- The global mutable state of alias.c: the linked list `head`..`tail`
(as a list of (key, value) pairs in insertion order) together with
`total_alias_val_length`, `nb_aliases` and `alias_key_changed`. -/
structure AliasState where
  table : List (List Char × List Char)
  total_alias_val_length : Int
  nb_aliases : Int
  alias_key_changed : Bool
deriving DecidableEq

/-- The initial state: `head = NULL`, counters 0, flag false. -/
def initState : AliasState := ⟨[], 0, 0, false⟩

/-- `strnlen(s, n)`. -/
def strnlen (s : List Char) (n : Nat) : Nat := min s.length n

/-- `strstr(buf + pos, key)` expressed in indices of `buf`: the least
index `i ≥ pos` at which `key` occurs as a substring, if any. -/
def findFrom (buf key : List Char) (pos : Nat) : Option Nat :=
  (List.range (buf.length + 1)).find?
    (fun i => decide (pos ≤ i) && key.isPrefixOf (buf.drop i))

/-- The buffer edit of the valid branch of `resolvealiases`: the
`memmove`/`memcpy` pair that splices the key occurrence at index `i`
out and the value in. -/
def substitute (buf : List Char) (i : Nat) (key value : List Char) : List Char :=
  buf.take i ++ value ++ buf.drop (i + key.length)

/-- `is_valid_alias(key, context, i)`.  The C function both answers the
validity question and, in the escape branch, shifts the context buffer
left in place to strip the escaping backslash; we return the verdict
together with the (possibly shifted) context. -/
def is_valid_alias (P : List Char → List Char → Nat → Bool)
    (key context : List Char) (i : Nat) : Bool × List Char :=
  if 0 < i ∧ context.get? (i - 1) = some '\\' then
    (false, context.eraseIdx (i - 1))
  else if key.head? = some '~' then
    (true, context)
  else
    (P key context i, context)

/-- One alias entry's pass of `resolvealiases` (the inner `for` loop):
scan the buffer from index `pos` for occurrences of `key`.  `fuel`
bounds the number of iterations; the remaining-suffix measure
`buf.length - pos` strictly shrinks at every iteration when `key` is
nonempty, so `buf.length + 1` fuel at pass start reproduces the C loop
exactly (for an empty key the C loop does not terminate). -/
def aliasPassGo (P : List Char → List Char → Nat → Bool)
    (key value : List Char) : Nat → List Char → Nat → List Char
  | 0, buf, _ => buf
  | fuel + 1, buf, pos =>
    match findFrom buf key pos with
    | none => buf
    | some i =>
      let r := is_valid_alias P key buf i
      if r.1 then
        aliasPassGo P key value fuel (substitute r.2 i key value) (i + value.length)
      else
        aliasPassGo P key value fuel r.2 (i + key.length)

/-- One alias entry's whole pass, started at the buffer's beginning. -/
def aliasPass (P : List Char → List Char → Nat → Bool)
    (key value buf : List Char) : List Char :=
  aliasPassGo P key value (buf.length + 1) buf 0

/-- `resolvealiases(s)` over a given table (the C function reads the
global list `head`..`tail`): one full pass per entry, in insertion
order, each pass scanning the buffer as mutated by the earlier passes. -/
def resolvealiases (P : List Char → List Char → Nat → Bool)
    (table : List (List Char × List Char)) (s : List Char) : List Char :=
  table.foldl (fun buf e => aliasPass P e.1 e.2 buf) s

/-- `strncmp(a, b, MAX_ALIAS_KEY_LENGTH) == 0`: agreement on the first
50 characters (a difference in length below 50 is a difference at the
terminator, hence disagreement). -/
def keyMatch (a b : List Char) : Bool :=
  a.take MAX_ALIAS_KEY_LENGTH == b.take MAX_ALIAS_KEY_LENGTH

/-- The list unlink performed by `unalias`: remove the first entry whose
key `strncmp`-matches, returning its value and the remaining list. -/
def removeFirst (key : List Char) :
    List (List Char × List Char) → Option (List Char × List (List Char × List Char))
  | [] => none
  | e :: rest =>
    if keyMatch e.1 key then some (e.2, rest)
    else
      match removeFirst key rest with
      | none => none
      | some (v, rest') => some (v, e :: rest')

/-- `unalias(key)`: returns the exit code, the error message printed by
`printerr` (if any), and the new state. -/
def unalias (key : List Char) (st : AliasState) :
    Nat × Option (List Char) × AliasState :=
  match removeFirst key st.table with
  | some (v, t') =>
    (EXIT_SUCCESS, none,
      { table := t'
        total_alias_val_length :=
          st.total_alias_val_length - (strnlen v MAX_ALIAS_VAL_LENGTH : Int)
        nb_aliases := st.nb_aliases - 1
        alias_key_changed := true })
  | none =>
    (EXIT_FAILURE, some ("unalias: no such alias key: ".toList ++ key), st)

/-- `alias_exists(key)`: `strcmp == 0` against each stored key. -/
def alias_exists (table : List (List Char × List Char)) (key : List Char) : Bool :=
  table.any (fun e => e.1 == key)

/-- `alias(k, v)`: pre-resolve `v` against the current table, measure the
(truncated) lengths, build the new entry — `strncpy(new->key, k,
keylength+1)` copies `min(strlen k, 50) + 1` bytes of `k`, so a key
longer than 50 characters has its first 51 characters copied and no
terminator (we model the bytes written); `new->value` is the resolved
value in full, untruncated — remove a previously existing entry, append
the new entry at the tail, update the aggregate length and the dirty
flag, and return `EXIT_SUCCESS` (the `malloc` results are unchecked). -/
def aliasOp (P : List Char → List Char → Nat → Bool)
    (k v : List Char) (st : AliasState) : Nat × AliasState :=
  let val := resolvealiases P st.table v
  let vallength := strnlen val MAX_ALIAS_VAL_LENGTH
  let keylength := strnlen k MAX_ALIAS_KEY_LENGTH
  let newKey := k.take (keylength + 1)
  let st1 := if alias_exists st.table k then (unalias k st).2.2 else st
  (EXIT_SUCCESS,
    { table := st1.table ++ [(newKey, val)]
      total_alias_val_length := st1.total_alias_val_length + (vallength : Int)
      nb_aliases := st1.nb_aliases + 1
      alias_key_changed := true })

/-- `get_all_alias_keys(nb_keys, only_on_change)`: the key snapshot query
(the `nb_keys` out-parameter is the list's length and is omitted). -/
def get_all_alias_keys (only_on_change : Bool) (st : AliasState) :
    Option (List (List Char)) × AliasState :=
  if only_on_change && !st.alias_key_changed then (none, st)
  else (some (st.table.map Prod.fst), { st with alias_key_changed := false })

/-- A table mutation: a `define` (the `alias` C function) or a `remove`
(the `unalias` C function). -/
inductive TableOp
  | defineOp (k v : List Char)
  | removeOp (k : List Char)

/-- Apply one table operation to a state, discarding the outputs. -/
def applyOp (P : List Char → List Char → Nat → Bool)
    (st : AliasState) : TableOp → AliasState
  | .defineOp k v => (aliasOp P k v st).2
  | .removeOp k => (unalias k st).2.2

/-- The state after a sequence of operations, starting from the pristine
globals. -/
def runOps (P : List Char → List Char → Nat → Bool)
    (ops : List TableOp) : AliasState :=
  ops.foldl (applyOp P) initState

/-- The sum, over the table, of the value lengths measured by
`strnlen(·, MAX_ALIAS_VAL_LENGTH)` — what `total_alias_val_length`
is meant to track. -/
def sumValLengths (table : List (List Char × List Char)) : Nat :=
  (table.map (fun e => strnlen e.2 MAX_ALIAS_VAL_LENGTH)).sum

/-- Modelled from the spec: the per-entry pass as §4.2 words the escape
case — "remove that single escape character from the buffer (shifting
the remainder left by one), do not substitute, and resume scanning
immediately after the (now-unescaped) key text", i.e. at index
`(i-1) + key.length` of the shifted buffer.  All other cases are as the
code.  To be compared with `aliasPassGo`, which resumes at
`i + key.length`. -/
def aliasPassGoSpecC3 (P : List Char → List Char → Nat → Bool)
    (key value : List Char) : Nat → List Char → Nat → List Char
  | 0, buf, _ => buf
  | fuel + 1, buf, pos =>
    match findFrom buf key pos with
    | none => buf
    | some i =>
      if 0 < i ∧ buf.get? (i - 1) = some '\\' then
        aliasPassGoSpecC3 P key value fuel (buf.eraseIdx (i - 1)) (i - 1 + key.length)
      else if key.head? = some '~' then
        aliasPassGoSpecC3 P key value fuel (substitute buf i key value) (i + value.length)
      else if P key buf i then
        aliasPassGoSpecC3 P key value fuel (substitute buf i key value) (i + value.length)
      else
        aliasPassGoSpecC3 P key value fuel buf (i + key.length)

/-- Modelled from the spec: `resolve` with the §4.2 escape-resumption
position, for comparison with `resolvealiases`. -/
def resolvealiasesSpecC3 (P : List Char → List Char → Nat → Bool)
    (table : List (List Char × List Char)) (s : List Char) : List Char :=
  table.foldl (fun buf e => aliasPassGoSpecC3 P e.1 e.2 (buf.length + 1) buf 0) s

/-- `StripBackslashes s t`: `t` is `s` with some (possibly zero)
backslash characters deleted — "the input unchanged except for
stripping of escape characters". -/
inductive StripBackslashes : List Char → List Char → Prop
  | nil : StripBackslashes [] []
  | keep (c : Char) {s t : List Char} :
      StripBackslashes s t → StripBackslashes (c :: s) (c :: t)
  | drop {s t : List Char} :
      StripBackslashes s t → StripBackslashes ('\\' :: s) t

/-- `aliasPassGo` instrumented with the number of substitutions the pass
performs; the first component is the resulting buffer. -/
def aliasPassGoCount (P : List Char → List Char → Nat → Bool)
    (key value : List Char) : Nat → List Char → Nat → List Char × Nat
  | 0, buf, _ => (buf, 0)
  | fuel + 1, buf, pos =>
    match findFrom buf key pos with
    | none => (buf, 0)
    | some i =>
      let r := is_valid_alias P key buf i
      if r.1 then
        let t := aliasPassGoCount P key value fuel
          (substitute r.2 i key value) (i + value.length)
        (t.1, t.2 + 1)
      else
        aliasPassGoCount P key value fuel r.2 (i + key.length)

/-- `resolvealiases` instrumented with the per-entry substitution
counts, in table order. -/
def resolveCounts (P : List Char → List Char → Nat → Bool) :
    List (List Char × List Char) → List Char → List Char × List Nat
  | [], s => (s, [])
  | e :: rest, s =>
    let r := aliasPassGoCount P e.1 e.2 (s.length + 1) s 0
    let t := resolveCounts P rest r.1
    (t.1, r.2 :: t.2)

/-- Pairwise sum `Σ count_j * (value_j).length` of a count list against
the table. -/
def sumZip : List Nat → List (List Char × List Char) → Nat
  | c :: cs, e :: es => c * e.2.length + sumZip cs es
  | _, _ => 0

/-! ### Helper lemmas -/

theorem removeFirst_none_of_noMatch (key : List Char)
    (t : List (List Char × List Char))
    (h : ∀ e ∈ t, keyMatch e.1 key = false) : removeFirst key t = none := by
  induction t with
  | nil => rfl
  | cons e rest ih =>
    simp only [removeFirst, h e (List.mem_cons_self e rest), Bool.false_eq_true,
      if_false]
    rw [ih (fun e' he' => h e' (List.mem_cons_of_mem e he'))]

theorem removeFirst_sumVal (key : List Char) (t : List (List Char × List Char))
    (v : List Char) (t' : List (List Char × List Char))
    (h : removeFirst key t = some (v, t')) :
    sumValLengths t = strnlen v MAX_ALIAS_VAL_LENGTH + sumValLengths t' := by
  induction t generalizing t' with
  | nil => simp [removeFirst] at h
  | cons e rest ih =>
    by_cases hm : keyMatch e.1 key = true
    · simp only [removeFirst, hm, if_true] at h
      obtain ⟨rfl, rfl⟩ := by simpa using h
      rfl
    · simp only [removeFirst, hm, if_false] at h
      cases hr : removeFirst key rest with
      | none => rw [hr] at h; simp at h
      | some p =>
        rw [hr] at h
        obtain ⟨v', rest'⟩ := p
        obtain ⟨rfl, rfl⟩ := by simpa using h
        have := ih rest' hr
        simp only [sumValLengths, List.map_cons, List.sum_cons] at *
        omega

theorem sumValLengths_append (t : List (List Char × List Char))
    (e : List Char × List Char) :
    sumValLengths (t ++ [e]) = sumValLengths t + strnlen e.2 MAX_ALIAS_VAL_LENGTH := by
  simp [sumValLengths]

/-- The aggregate-length invariant preserved by `unalias` (both on a hit
and on a miss). -/
theorem unalias_preserves_sumVal (key : List Char) (st : AliasState)
    (h : st.total_alias_val_length = (sumValLengths st.table : Int)) :
    ((unalias key st).2.2).total_alias_val_length
      = (sumValLengths ((unalias key st).2.2).table : Int) := by
  cases hr : removeFirst key st.table with
  | none => simpa [unalias, hr] using h
  | some p =>
    obtain ⟨v, t'⟩ := p
    have hs := removeFirst_sumVal key st.table v t' hr
    simp only [unalias, hr, h, hs]
    push_cast
    ring

/-- The aggregate-length invariant preserved by `alias`. -/
theorem aliasOp_preserves_sumVal (P : List Char → List Char → Nat → Bool)
    (k v : List Char) (st : AliasState)
    (h : st.total_alias_val_length = (sumValLengths st.table : Int)) :
    ((aliasOp P k v st).2).total_alias_val_length
      = (sumValLengths ((aliasOp P k v st).2).table : Int) := by
  have h1 : (if alias_exists st.table k then (unalias k st).2.2 else st).total_alias_val_length
      = (sumValLengths (if alias_exists st.table k then (unalias k st).2.2 else st).table : Int) := by
    by_cases he : alias_exists st.table k
    · simpa [he] using unalias_preserves_sumVal k st h
    · simpa [he] using h
  simp only [aliasOp]
  rw [sumValLengths_append]
  push_cast
  omega

/-! ### Claims -/

/-- C10: `alias` returns the success status on every invocation — the C
function's only return statement is `return EXIT_SUCCESS` (its `malloc`
results are unchecked, so an allocation failure crashes rather than
producing a failure status; allocation is not modelled here). -/
theorem claim_C10 (P : List Char → List Char → Nat → Bool)
    (k v : List Char) (st : AliasState) :
    (aliasOp P k v st).1 = EXIT_SUCCESS := rfl

/-- C7: after every sequence of define/remove operations starting from
the pristine globals, `total_alias_val_length` equals the sum over the
current entries of their value lengths measured up to the 200-character
truncation bound. -/
theorem claim_C7 (P : List Char → List Char → Nat → Bool)
    (ops : List TableOp) :
    (runOps P ops).total_alias_val_length
      = (sumValLengths (runOps P ops).table : Int) := by
  suffices h : ∀ (l : List TableOp) (st : AliasState),
      st.total_alias_val_length = (sumValLengths st.table : Int) →
      (l.foldl (applyOp P) st).total_alias_val_length
        = (sumValLengths (l.foldl (applyOp P) st).table : Int) by
    exact h ops initState rfl
  intro l
  induction l with
  | nil => intro st hst; simpa using hst
  | cons op rest ih =>
    intro st hst
    refine ih (applyOp P st op) ?_
    cases op with
    | defineOp k v => exact aliasOp_preserves_sumVal P k v st hst
    | removeOp k => exact unalias_preserves_sumVal k st hst

/-- C8: the dirty flag is set by every define and by every successful
remove and cleared by the read-and-reset query; hence
`get_all_alias_keys true` called twice with no intervening define or
remove returns "no change" (NULL) the second time, and returns the key
set after an intervening define or successful remove. -/
theorem claim_C8 (P : List Char → List Char → Nat → Bool)
    (k v k' : List Char) (st : AliasState) :
    ((aliasOp P k v st).2.alias_key_changed = true)
    ∧ ((unalias k' st).1 = EXIT_SUCCESS →
        (unalias k' st).2.2.alias_key_changed = true)
    ∧ ((get_all_alias_keys true ((get_all_alias_keys true st).2)).1 = none)
    ∧ ((get_all_alias_keys true ((aliasOp P k v ((get_all_alias_keys true st).2)).2)).1
        = some (((aliasOp P k v ((get_all_alias_keys true st).2)).2).table.map Prod.fst))
    ∧ ((unalias k' ((get_all_alias_keys true st).2)).1 = EXIT_SUCCESS →
        (get_all_alias_keys true ((unalias k' ((get_all_alias_keys true st).2)).2.2)).1
          = some (((unalias k' ((get_all_alias_keys true st).2)).2.2).table.map Prod.fst))
    := by
  refine ⟨rfl, ?_, ?_, ?_, ?_⟩
  · intro h
    cases hr : removeFirst k' st.table with
    | none => simp [unalias, hr, EXIT_FAILURE, EXIT_SUCCESS] at h
    | some p => simp [unalias, hr]
  · cases hc : st.alias_key_changed <;>
      simp [get_all_alias_keys, hc]
  · simp [get_all_alias_keys, aliasOp]
  · intro h
    set st1 := (get_all_alias_keys true st).2 with hst1
    cases hr : removeFirst k' st1.table with
    | none => simp [unalias, hr, EXIT_FAILURE, EXIT_SUCCESS] at h
    | some p => simp [unalias, hr, get_all_alias_keys]

/-- C8 witness: a concrete instance — defining into and removing from a
one-entry table around snapshot queries. -/
theorem claim_C8_witness :
    (((aliasOp (fun _ _ _ => true) "k".toList "v".toList
        ⟨[("a".toList, "b".toList)], 1, 1, false⟩).2.alias_key_changed = true)
    ∧ ((unalias "a".toList ⟨[("a".toList, "b".toList)], 1, 1, false⟩).2.2.alias_key_changed = true)
    ∧ ((get_all_alias_keys true ((get_all_alias_keys true
          ⟨[("a".toList, "b".toList)], 1, 1, false⟩).2)).1 = none)
    ∧ ((get_all_alias_keys true ((aliasOp (fun _ _ _ => true) "k".toList "v".toList
          ((get_all_alias_keys true ⟨[("a".toList, "b".toList)], 1, 1, false⟩).2)).2)).1
        = some (((aliasOp (fun _ _ _ => true) "k".toList "v".toList
          ((get_all_alias_keys true ⟨[("a".toList, "b".toList)], 1, 1, false⟩).2)).2).table.map Prod.fst))
    ∧ ((get_all_alias_keys true ((unalias "a".toList
          ((get_all_alias_keys true ⟨[("a".toList, "b".toList)], 1, 1, false⟩).2)).2.2)).1
        = some (((unalias "a".toList
          ((get_all_alias_keys true ⟨[("a".toList, "b".toList)], 1, 1, false⟩).2)).2.2).table.map Prod.fst))) := by
  obtain ⟨h1, h2, h3, h4, h5⟩ := claim_C8 (fun _ _ _ => true) "k".toList "v".toList
    "a".toList ⟨[("a".toList, "b".toList)], 1, 1, false⟩
  exact ⟨h1, h2 (by decide), h3, h4, h5 (by decide)⟩

/-- C9 counterexample: the claim fails as stated — `unalias` compares
keys only up to 50 characters, so removing the 51-`'a'` key from a table
holding only the 50-`'a'` key succeeds (EXIT_SUCCESS) and removes that
entry, although the requested key is not present in the table. -/
theorem claim_C9_counterexample :
    (¬ (⟨[(List.replicate 50 'a', "v".toList)], 1, 1, false⟩ : AliasState).table.any
        (fun e => e.1 == List.replicate 51 'a'))
    ∧ (unalias (List.replicate 51 'a')
        ⟨[(List.replicate 50 'a', "v".toList)], 1, 1, false⟩).1 = EXIT_SUCCESS
    ∧ ((unalias (List.replicate 51 'a')
        ⟨[(List.replicate 50 'a', "v".toList)], 1, 1, false⟩).2.2).table = [] := by
  decide

/-- C9 amended: for every key that agrees with no stored key on the
first `MAX_ALIAS_KEY_LENGTH` (50) characters — in particular any absent
key when all keys involved are shorter than 50 characters — `unalias`
returns EXIT_FAILURE, reports the key name in the printed message, and
returns with the state (entries, count, aggregate length) exactly as it
was. -/
theorem claim_C9_amended (key : List Char) (st : AliasState)
    (h : ∀ e ∈ st.table, keyMatch e.1 key = false) :
    unalias key st
      = (EXIT_FAILURE, some ("unalias: no such alias key: ".toList ++ key), st) := by
  simp [unalias, removeFirst_none_of_noMatch key st.table h]

/-- C9 witness: removing `"nope"` from a table holding only `"ls"`. -/
theorem claim_C9_witness :
    unalias "nope".toList ⟨[("ls".toList, "ls --color".toList)], 10, 1, false⟩
      = (EXIT_FAILURE, some ("unalias: no such alias key: ".toList ++ "nope".toList),
          ⟨[("ls".toList, "ls --color".toList)], 10, 1, false⟩) :=
  claim_C9_amended "nope".toList ⟨[("ls".toList, "ls --color".toList)], 10, 1, false⟩
    (by decide)

set_option maxRecDepth 4000 in
/-- C2: evaluation of `alias` at the failing input — on the empty table,
defining a 60-character key with a 250-character value stores the first
51 characters of the key (the `strncpy(new->key, k, keylength+1)` copies
`min(strlen k, 50) + 1 = 51` bytes and no terminator), not the first 50,
and stores the 250-character value in full: `new->value` is the resolved
value, never truncated (only the aggregate-length bookkeeping uses
`strnlen(val, 200)`), contradicting the code's own comment that too-long
strings are silently truncated. -/
theorem claim_C2_code_eval :
    ((aliasOp (fun _ _ _ => false) (List.replicate 60 'a') (List.replicate 250 'b')
        initState).2).table
      = [(List.replicate 51 'a', List.replicate 250 'b')]
    ∧ (List.replicate 51 'a' ≠ (List.replicate 60 'a').take 50)
    ∧ (List.replicate 250 'b' ≠ (List.replicate 250 'b').take 200) := by
  decide

/-! ### Step equations of the scanning loop -/

theorem aliasPassGo_stop (P : List Char → List Char → Nat → Bool)
    (key value : List Char) (fuel : Nat) (buf : List Char) (pos : Nat)
    (h : findFrom buf key pos = none) :
    aliasPassGo P key value (fuel + 1) buf pos = buf := by
  simp [aliasPassGo, h]

theorem is_valid_alias_true_ctx (P : List Char → List Char → Nat → Bool)
    (key context : List Char) (i : Nat)
    (h : (is_valid_alias P key context i).1 = true) :
    (is_valid_alias P key context i).2 = context := by
  revert h
  unfold is_valid_alias
  split
  · intro h; simp at h
  · split
    · intro _; rfl
    · intro _; rfl

theorem aliasPassGo_escape (P : List Char → List Char → Nat → Bool)
    (key value : List Char) (fuel : Nat) (buf : List Char) (pos i : Nat)
    (h : findFrom buf key pos = some i) (hi : 0 < i)
    (hc : buf.get? (i - 1) = some '\\') :
    aliasPassGo P key value (fuel + 1) buf pos
      = aliasPassGo P key value fuel (buf.eraseIdx (i - 1)) (i + key.length) := by
  have hc' : buf[i - 1]? = some '\\' := by simpa using hc
  simp [aliasPassGo, h, is_valid_alias, hi, hc']

theorem aliasPassGo_valid (P : List Char → List Char → Nat → Bool)
    (key value : List Char) (fuel : Nat) (buf : List Char) (pos i : Nat)
    (h : findFrom buf key pos = some i)
    (hv : (is_valid_alias P key buf i).1 = true) :
    aliasPassGo P key value (fuel + 1) buf pos
      = aliasPassGo P key value fuel (substitute buf i key value) (i + value.length) := by
  have hc := is_valid_alias_true_ctx P key buf i hv
  simp [aliasPassGo, h, hv, hc]

theorem aliasPassGo_invalid (P : List Char → List Char → Nat → Bool)
    (key value : List Char) (fuel : Nat) (buf : List Char) (pos i : Nat)
    (h : findFrom buf key pos = some i)
    (hv : (is_valid_alias P key buf i).1 = false) :
    aliasPassGo P key value (fuel + 1) buf pos
      = aliasPassGo P key value fuel (is_valid_alias P key buf i).2 (i + key.length) := by
  simp [aliasPassGo, h, hv]

/-- C1 counterexample: the allocated bound does not suffice.  With
aliases `x -> "yy"` and `y -> "zzz"` (aggregate value length 5) and an
always-true validity predicate, resolving `"xx"` produces twelve `'z'`s:
the first pass rewrites `"xx"` to `"yyyy"`, and the second substitutes
all four `'y'`s, exceeding `len(input) + aggregate = 7`. -/
theorem claim_C1_counterexample :
    resolvealiases (fun _ _ _ => true)
        [("x".toList, "yy".toList), ("y".toList, "zzz".toList)] "xx".toList
      = List.replicate 12 'z'
    ∧ ¬ ((resolvealiases (fun _ _ _ => true)
        [("x".toList, "yy".toList), ("y".toList, "zzz".toList)] "xx".toList).length
          ≤ "xx".toList.length
            + sumValLengths [("x".toList, "yy".toList), ("y".toList, "zzz".toList)]) := by
  decide

/-- C3 counterexample: the escape branch does not resume immediately
after the unescaped key text.  With alias `ls -> "X"`, an always-true
predicate and input `"\lsls"`, the spec-worded resumption (one index
earlier) would substitute the second, unescaped `ls` and produce
`"lsX"`; the code instead skips the character following the unescaped
key text (`str = p + strlen(key)` against a buffer shifted left by one)
and returns `"lsls"`. -/
theorem claim_C3_counterexample :
    resolvealiases (fun _ _ _ => true) [("ls".toList, "X".toList)] "\\lsls".toList
      = "lsls".toList
    ∧ resolvealiasesSpecC3 (fun _ _ _ => true) [("ls".toList, "X".toList)] "\\lsls".toList
      = "lsX".toList
    ∧ "lsls".toList ≠ "lsX".toList := by
  decide

/-- C3 amended: on a match at offset `i > 0` preceded by a backslash,
the code removes that single backslash (no substitution, the predicate
is not consulted) and resumes scanning at index `i + len(key)` of the
shifted buffer — one character past the end of the now-unescaped key
text (which occupies indices `i-1` to `i-1+len(key)`), so the character
directly following the unescaped key is skipped; the `"\ls"` example of
the spec does hold: resolving it yields `"ls"` for every predicate. -/
theorem claim_C3_amended :
    (∀ (P : List Char → List Char → Nat → Bool) (key value : List Char)
        (fuel : Nat) (buf : List Char) (pos i : Nat),
        findFrom buf key pos = some i → 0 < i → buf.get? (i - 1) = some '\\' →
        aliasPassGo P key value (fuel + 1) buf pos
          = aliasPassGo P key value fuel (buf.eraseIdx (i - 1)) (i + key.length))
    ∧ (∀ P : List Char → List Char → Nat → Bool,
        resolvealiases P [("ls".toList, "ls --color".toList)] "\\ls".toList
          = "ls".toList) := by
  constructor
  · exact fun P key value fuel buf pos i h hi hc =>
      aliasPassGo_escape P key value fuel buf pos i h hi hc
  · intro P
    have e1 : findFrom "\\ls".toList "ls".toList 0 = some 1 := by decide
    have e2 : findFrom "ls".toList "ls".toList 3 = none := by decide
    calc resolvealiases P [("ls".toList, "ls --color".toList)] "\\ls".toList
        = aliasPassGo P "ls".toList "ls --color".toList 4 "\\ls".toList 0 := rfl
      _ = aliasPassGo P "ls".toList "ls --color".toList 3
            ("\\ls".toList.eraseIdx 0) (1 + "ls".toList.length) :=
          aliasPassGo_escape P "ls".toList "ls --color".toList 3 "\\ls".toList 0 1
            e1 (by decide) (by decide)
      _ = "ls".toList :=
          aliasPassGo_stop P "ls".toList "ls --color".toList 2 "ls".toList 3 e2

/-- C3 witness: the escape-step equation instantiated at
`buf = "\ab"`, `key = "ab"`, match offset 1, together with the `"\ls"`
example at a concrete predicate. -/
theorem claim_C3_witness :
    (aliasPassGo (fun _ _ _ => true) "ab".toList "v".toList (2 + 1) "\\ab".toList 0
      = aliasPassGo (fun _ _ _ => true) "ab".toList "v".toList 2
          ("\\ab".toList.eraseIdx 0) (1 + "ab".toList.length))
    ∧ resolvealiases (fun _ _ _ => true) [("ls".toList, "ls --color".toList)]
        "\\ls".toList = "ls".toList :=
  ⟨claim_C3_amended.1 (fun _ _ _ => true) "ab".toList "v".toList 2 "\\ab".toList 0 1
      (by decide) (by decide) (by decide),
    claim_C3_amended.2 (fun _ _ _ => true)⟩

/-- C5: after a valid substitution the scan resumes at
`i + len(value)`, immediately after the inserted value, so the inserted
text is not re-scanned during this alias's pass; consequently, with
alias `ls -> "ls --color"` and a predicate accepting the occurrence of
`ls` at offset 0, resolving `"ls"` terminates with `"ls --color"`
rather than expanding without bound. -/
theorem claim_C5 :
    (∀ (P : List Char → List Char → Nat → Bool) (key value : List Char)
        (fuel : Nat) (buf : List Char) (pos i : Nat),
        findFrom buf key pos = some i →
        (is_valid_alias P key buf i).1 = true →
        aliasPassGo P key value (fuel + 1) buf pos
          = aliasPassGo P key value fuel (substitute buf i key value)
              (i + value.length))
    ∧ (∀ P : List Char → List Char → Nat → Bool,
        P "ls".toList "ls".toList 0 = true →
        resolvealiases P [("ls".toList, "ls --color".toList)] "ls".toList
          = "ls --color".toList) := by
  constructor
  · exact fun P key value fuel buf pos i h hv =>
      aliasPassGo_valid P key value fuel buf pos i h hv
  · intro P hP
    have e1 : findFrom "ls".toList "ls".toList 0 = some 0 := by decide
    have hv : (is_valid_alias P "ls".toList "ls".toList 0).1 = true := by
      simpa [is_valid_alias] using hP
    have e2 : findFrom "ls --color".toList "ls".toList 10 = none := by decide
    calc resolvealiases P [("ls".toList, "ls --color".toList)] "ls".toList
        = aliasPassGo P "ls".toList "ls --color".toList 3 "ls".toList 0 := rfl
      _ = aliasPassGo P "ls".toList "ls --color".toList 2
            (substitute "ls".toList 0 "ls".toList "ls --color".toList)
            (0 + "ls --color".toList.length) :=
          aliasPassGo_valid P "ls".toList "ls --color".toList 2 "ls".toList 0 0 e1 hv
      _ = "ls --color".toList :=
          aliasPassGo_stop P "ls".toList "ls --color".toList 1 "ls --color".toList 10 e2

/-- C5 witness: the always-true predicate accepts the command position,
and resolving `"ls"` indeed yields `"ls --color"`. -/
theorem claim_C5_witness :
    resolvealiases (fun _ _ _ => true) [("ls".toList, "ls --color".toList)]
      "ls".toList = "ls --color".toList :=
  claim_C5.2 (fun _ _ _ => true) rfl

/-! ### The escape-stripping relation -/

theorem strip_refl (l : List Char) : StripBackslashes l l := by
  induction l with
  | nil => exact .nil
  | cons c rest ih => exact .keep c ih

theorem strip_trans {a b c : List Char} (h1 : StripBackslashes a b)
    (h2 : StripBackslashes b c) : StripBackslashes a c := by
  induction h1 generalizing c with
  | nil => exact h2
  | keep ch _ ih =>
    cases h2 with
    | keep _ h2' => exact .keep ch (ih h2')
    | drop h2' => exact .drop (ih h2')
  | drop _ ih => exact .drop (ih h2)

theorem strip_length {s t : List Char} (h : StripBackslashes s t) :
    t.length ≤ s.length := by
  induction h with
  | nil => exact Nat.le_refl 0
  | keep c _ ih => simpa using Nat.succ_le_succ ih
  | drop _ ih => simpa using Nat.le_succ_of_le ih

theorem strip_eraseIdx : ∀ (l : List Char) (i : Nat),
    l.get? i = some '\\' → StripBackslashes l (l.eraseIdx i)
  | [], i, h => by simp at h
  | c :: rest, 0, h => by
    have : c = '\\' := by simpa using h
    subst this
    exact .drop (strip_refl rest)
  | c :: rest, i + 1, h =>
    .keep c (strip_eraseIdx rest i (by simpa using h))

theorem is_valid_alias_false_of_reject (P : List Char → List Char → Nat → Bool)
    (key buf : List Char) (i : Nat)
    (hP : ∀ k c j, P k c j = false) (hk : key.head? ≠ some '~') :
    (is_valid_alias P key buf i).1 = false := by
  by_cases h1 : 0 < i ∧ buf.get? (i - 1) = some '\\'
  · obtain ⟨hi, hc⟩ := h1
    have hc' : buf[i - 1]? = some '\\' := by simpa using hc
    simp [is_valid_alias, hi, hc']
  · simp only [List.get?_eq_getElem?] at h1
    simp [is_valid_alias, h1, hk, hP]

theorem is_valid_alias_ctx_strip (P : List Char → List Char → Nat → Bool)
    (key buf : List Char) (i : Nat) :
    StripBackslashes buf (is_valid_alias P key buf i).2 := by
  unfold is_valid_alias
  split
  · next hcond => exact strip_eraseIdx buf (i - 1) hcond.2
  · split
    · exact strip_refl buf
    · exact strip_refl buf

/-- With a rejecting predicate and a key not starting with `'~'`, a pass
only ever deletes escaping backslashes. -/
theorem aliasPassGo_strip (P : List Char → List Char → Nat → Bool)
    (key value : List Char)
    (hP : ∀ k c j, P k c j = false) (hk : key.head? ≠ some '~') :
    ∀ (fuel : Nat) (buf : List Char) (pos : Nat),
      StripBackslashes buf (aliasPassGo P key value fuel buf pos) := by
  intro fuel
  induction fuel with
  | zero => intro buf pos; exact strip_refl buf
  | succ fuel ih =>
    intro buf pos
    cases h : findFrom buf key pos with
    | none => rw [aliasPassGo_stop P key value fuel buf pos h]; exact strip_refl buf
    | some i =>
      rw [aliasPassGo_invalid P key value fuel buf pos i h
        (is_valid_alias_false_of_reject P key buf i hP hk)]
      exact strip_trans (is_valid_alias_ctx_strip P key buf i)
        (ih (is_valid_alias P key buf i).2 (i + key.length))

/-- C4 counterexample: the claim fails as stated — a key beginning with
`'~'` is substituted in any context without consulting the predicate,
so with alias `~a -> "HOME"` and the always-false predicate, resolving
`"~a"` yields `"HOME"`, which is not the input modulo backslash
stripping (it is even longer than the input). -/
theorem claim_C4_counterexample :
    resolvealiases (fun _ _ _ => false) [("~a".toList, "HOME".toList)] "~a".toList
      = "HOME".toList
    ∧ ¬ StripBackslashes "~a".toList "HOME".toList := by
  refine ⟨by decide, fun h => ?_⟩
  have := strip_length h
  simp at this

/-- C4 amended: if the validity predicate rejects every query and no
stored key begins with the built-in-alias marker `'~'`, then for every
table contents `resolve` returns the input unchanged except for the
stripping of escape characters. -/
theorem claim_C4_amended (P : List Char → List Char → Nat → Bool)
    (table : List (List Char × List Char)) (s : List Char)
    (hP : ∀ k c j, P k c j = false)
    (hT : ∀ e ∈ table, e.1.head? ≠ some '~') :
    StripBackslashes s (resolvealiases P table s) := by
  induction table generalizing s with
  | nil => exact strip_refl s
  | cons e rest ih =>
    have h1 : StripBackslashes s (aliasPass P e.1 e.2 s) :=
      aliasPassGo_strip P e.1 e.2 hP (hT e (List.mem_cons_self e rest))
        (s.length + 1) s 0
    have h2 := ih (aliasPass P e.1 e.2 s)
      (fun e' he' => hT e' (List.mem_cons_of_mem e he'))
    exact strip_trans h1 h2

/-- C4 witness: with the always-false predicate and alias
`ls -> "ls --color"`, resolving `"\ls"` is a backslash-stripping of the
input. -/
theorem claim_C4_witness :
    StripBackslashes "\\ls".toList
      (resolvealiases (fun _ _ _ => false) [("ls".toList, "ls --color".toList)]
        "\\ls".toList) :=
  claim_C4_amended (fun _ _ _ => false) [("ls".toList, "ls --color".toList)]
    "\\ls".toList (fun _ _ _ => rfl) (by decide)

/-! ### Replace semantics of define (keys within the length bound) -/

/-- C6 counterexample: the replace semantics fail for a key longer than
50 characters.  Defining a 52-character key twice from the empty table
leaves TWO entries, both storing the same 51-byte `strncpy` copy of the
key (both of which match the key under the code's own `strncmp`-50
comparison), and the entry count grows from 1 to 2: `alias_exists`
compares the stored 51-byte copy against the full 52-character argument,
finds no match, and so the second define appends a duplicate instead of
replacing. -/
theorem claim_C6_counterexample :
    (((aliasOp (fun _ _ _ => true) (List.replicate 52 'a') "b".toList
        ((aliasOp (fun _ _ _ => true) (List.replicate 52 'a') "a".toList
          initState).2)).2).table.map Prod.fst
        = [List.replicate 51 'a', List.replicate 51 'a'])
    ∧ (((aliasOp (fun _ _ _ => true) (List.replicate 52 'a') "b".toList
        ((aliasOp (fun _ _ _ => true) (List.replicate 52 'a') "a".toList
          initState).2)).2).table.filter
          (fun e => keyMatch e.1 (List.replicate 52 'a'))).length = 2
    ∧ ((aliasOp (fun _ _ _ => true) (List.replicate 52 'a') "b".toList
        ((aliasOp (fun _ _ _ => true) (List.replicate 52 'a') "a".toList
          initState).2)).2).nb_aliases
        = ((aliasOp (fun _ _ _ => true) (List.replicate 52 'a') "a".toList
          initState).2).nb_aliases + 1
    ∧ ((aliasOp (fun _ _ _ => true) (List.replicate 52 'a') "b".toList
        ((aliasOp (fun _ _ _ => true) (List.replicate 52 'a') "a".toList
          initState).2)).2).table.length = 2 := by
  decide

theorem keyMatch_iff (a b : List Char) (ha : a.length ≤ MAX_ALIAS_KEY_LENGTH)
    (hb : b.length ≤ MAX_ALIAS_KEY_LENGTH) : keyMatch a b = true ↔ a = b := by
  unfold keyMatch
  rw [List.take_of_length_le ha, List.take_of_length_le hb]
  exact beq_iff_eq

theorem alias_exists_iff (t : List (List Char × List Char)) (k : List Char) :
    alias_exists t k = true ↔ ∃ e ∈ t, e.1 = k := by
  simp [alias_exists, List.any_eq_true]

/-- `unalias`'s unlink on a table with unique, length-bounded keys:
it removes exactly the one entry whose key is `k`. -/
theorem removeFirst_unique (k : List Char) (t : List (List Char × List Char))
    (hk : k.length ≤ MAX_ALIAS_KEY_LENGTH)
    (hT : ∀ e ∈ t, e.1.length ≤ MAX_ALIAS_KEY_LENGTH)
    (hC : (t.filter (fun e => e.1 == k)).length ≤ 1)
    (he : alias_exists t k = true) :
    ∃ v t', removeFirst k t = some (v, t')
      ∧ t'.filter (fun e => e.1 == k) = []
      ∧ (∀ e ∈ t', e.1.length ≤ MAX_ALIAS_KEY_LENGTH)
      ∧ t'.length + 1 = t.length := by
  induction t with
  | nil => simp [alias_exists] at he
  | cons e rest ih =>
    by_cases hm : e.1 = k
    · have hmatch : keyMatch e.1 k = true := by
        unfold keyMatch; rw [hm]; exact beq_iff_eq.mpr rfl
      refine ⟨e.2, rest, by simp [removeFirst, hmatch], ?_, ?_, by simp⟩
      · rw [List.filter_cons_of_pos (by exact beq_iff_eq.mpr hm)] at hC
        have h0 : (rest.filter (fun e => e.1 == k)).length = 0 := by
          simp only [List.length_cons] at hC
          omega
        exact List.length_eq_zero.mp h0
      · exact fun e' he' => hT e' (List.mem_cons_of_mem e he')
    · have hmatch : keyMatch e.1 k = false := by
        by_cases hkm : keyMatch e.1 k = true
        · exact absurd ((keyMatch_iff e.1 k (hT e (List.mem_cons_self e rest)) hk).mp hkm) hm
        · simpa using hkm
      have he' : alias_exists rest k = true := by
        rcases (alias_exists_iff _ k).mp he with ⟨e', he'', hek⟩
        rcases List.mem_cons.mp he'' with h | h
        · exact absurd (h ▸ hek) hm
        · exact (alias_exists_iff _ k).mpr ⟨e', h, hek⟩
      have hC' : (rest.filter (fun e => e.1 == k)).length ≤ 1 := by
        rwa [List.filter_cons_of_neg (by simpa using hm)] at hC
      obtain ⟨v, rest', hr, hf, h50, hlen⟩ := ih
        (fun e' h => hT e' (List.mem_cons_of_mem e h)) hC' he'
      refine ⟨v, e :: rest', by simp [removeFirst, hmatch, hr], ?_, ?_, by simpa using hlen⟩
      · rw [List.filter_cons_of_neg (by simpa using hm)]
        exact hf
      · intro e' h
        rcases List.mem_cons.mp h with h | h
        · exact h ▸ hT e (List.mem_cons_self e rest)
        · exact h50 e' h

/-- The effect of one `alias(k, v)` call on the entries with key `k`,
when `k` and all stored keys fit in the 50-character bound and keys are
unique: afterwards the sole entry for `k` holds the pre-resolved value,
and the entry count grows only if `k` was absent. -/
theorem aliasOp_effect (P : List Char → List Char → Nat → Bool)
    (k v : List Char) (st : AliasState)
    (hk : k.length ≤ MAX_ALIAS_KEY_LENGTH)
    (hT : ∀ e ∈ st.table, e.1.length ≤ MAX_ALIAS_KEY_LENGTH)
    (hC : (st.table.filter (fun e => e.1 == k)).length ≤ 1) :
    ((aliasOp P k v st).2).table.filter (fun e => e.1 == k)
        = [(k, resolvealiases P st.table v)]
    ∧ (∀ e ∈ ((aliasOp P k v st).2).table, e.1.length ≤ MAX_ALIAS_KEY_LENGTH)
    ∧ ((aliasOp P k v st).2).nb_aliases
        = (if alias_exists st.table k then st.nb_aliases else st.nb_aliases + 1)
    ∧ ((aliasOp P k v st).2).table.length
        = (if alias_exists st.table k then st.table.length else st.table.length + 1) := by
  have hkey : k.take (strnlen k MAX_ALIAS_KEY_LENGTH + 1) = k := by
    rw [strnlen, min_eq_left hk]
    exact List.take_of_length_le (Nat.le_succ _)
  by_cases he : alias_exists st.table k
  · obtain ⟨v₀, t', hr, hf, h50, hlen⟩ := removeFirst_unique k st.table hk hT hC he
    have htab : ((aliasOp P k v st).2).table
        = t' ++ [(k, resolvealiases P st.table v)] := by
      simp [aliasOp, he, unalias, hr, hkey]
    refine ⟨?_, ?_, ?_, ?_⟩
    · rw [htab, List.filter_append, hf,
        List.filter_cons_of_pos (by exact beq_iff_eq.mpr rfl)]
      rfl
    · rw [htab]
      intro e h
      rcases List.mem_append.mp h with h | h
      · exact h50 e h
      · simpa using (by simpa using h : e = (k, resolvealiases P st.table v)) ▸ hk
    · simp [aliasOp, he, unalias, hr]
    · rw [htab, if_pos he]
      simpa using hlen
  · have htab : ((aliasOp P k v st).2).table
        = st.table ++ [(k, resolvealiases P st.table v)] := by
      simp [aliasOp, he, hkey]
    have hnil : st.table.filter (fun e => e.1 == k) = [] := by
      rw [List.filter_eq_nil_iff]
      intro e h hek
      exact he ((alias_exists_iff st.table k).mpr ⟨e, h, by simpa using hek⟩)
    refine ⟨?_, ?_, ?_, ?_⟩
    · rw [htab, List.filter_append, hnil,
        List.filter_cons_of_pos (by exact beq_iff_eq.mpr rfl)]
      rfl
    · rw [htab]
      intro e h
      rcases List.mem_append.mp h with h | h
      · exact hT e h
      · simpa using (by simpa using h : e = (k, resolvealiases P st.table v)) ▸ hk
    · simp [aliasOp, he]
    · rw [htab, if_neg he]
      simp

/-- C6 amended: for keys of at most `MAX_ALIAS_KEY_LENGTH` (50)
characters, starting from a table with unique length-bounded keys,
defining the same key twice leaves exactly one entry for the key,
holding the value of the second call pre-resolved against the
intermediate table, and leaves the entry count (both the `nb_aliases`
counter and the list length) unchanged from after the first call (for
longer keys the replace semantics fail, see the counterexample). -/
theorem claim_C6 (P : List Char → List Char → Nat → Bool)
    (k v1 v2 : List Char) (st : AliasState)
    (hk : k.length ≤ MAX_ALIAS_KEY_LENGTH)
    (hT : ∀ e ∈ st.table, e.1.length ≤ MAX_ALIAS_KEY_LENGTH)
    (hC : (st.table.filter (fun e => e.1 == k)).length ≤ 1) :
    ((aliasOp P k v2 ((aliasOp P k v1 st).2)).2).table.filter (fun e => e.1 == k)
        = [(k, resolvealiases P ((aliasOp P k v1 st).2).table v2)]
    ∧ ((aliasOp P k v2 ((aliasOp P k v1 st).2)).2).nb_aliases
        = ((aliasOp P k v1 st).2).nb_aliases
    ∧ ((aliasOp P k v2 ((aliasOp P k v1 st).2)).2).table.length
        = ((aliasOp P k v1 st).2).table.length := by
  obtain ⟨hf1, h50, _, _⟩ := aliasOp_effect P k v1 st hk hT hC
  have hC1 : (((aliasOp P k v1 st).2).table.filter (fun e => e.1 == k)).length ≤ 1 := by
    rw [hf1]; exact Nat.le_refl 1
  have he1 : alias_exists ((aliasOp P k v1 st).2).table k = true := by
    have hm : (k, resolvealiases P st.table v1) ∈
        ((aliasOp P k v1 st).2).table.filter (fun e => e.1 == k) := by
      rw [hf1]; exact List.mem_singleton.mpr rfl
    exact (alias_exists_iff _ k).mpr
      ⟨(k, resolvealiases P st.table v1), (List.mem_filter.mp hm).1, rfl⟩
  obtain ⟨hf2, _, hnb2, hlen2⟩ := aliasOp_effect P k v2 ((aliasOp P k v1 st).2) hk h50 hC1
  exact ⟨hf2, by rwa [if_pos he1] at hnb2, by rwa [if_pos he1] at hlen2⟩

/-- C6 witness: redefining `ls` on the empty table. -/
theorem claim_C6_witness :
    ((aliasOp (fun _ _ _ => true) "ls".toList "b".toList
        ((aliasOp (fun _ _ _ => true) "ls".toList "a".toList initState).2)).2).table.filter
          (fun e => e.1 == "ls".toList)
        = [("ls".toList, resolvealiases (fun _ _ _ => true)
            ((aliasOp (fun _ _ _ => true) "ls".toList "a".toList initState).2).table
            "b".toList)]
    ∧ ((aliasOp (fun _ _ _ => true) "ls".toList "b".toList
        ((aliasOp (fun _ _ _ => true) "ls".toList "a".toList initState).2)).2).nb_aliases
        = ((aliasOp (fun _ _ _ => true) "ls".toList "a".toList initState).2).nb_aliases
    ∧ ((aliasOp (fun _ _ _ => true) "ls".toList "b".toList
        ((aliasOp (fun _ _ _ => true) "ls".toList "a".toList initState).2)).2).table.length
        = ((aliasOp (fun _ _ _ => true) "ls".toList "a".toList initState).2).table.length :=
  claim_C6 (fun _ _ _ => true) "ls".toList "a".toList "b".toList initState
    (by decide) (by decide) (by decide)

/-! ### Length accounting of the substitution process -/

theorem resolvealiases_cons (P : List Char → List Char → Nat → Bool)
    (e : List Char × List Char) (rest : List (List Char × List Char))
    (s : List Char) :
    resolvealiases P (e :: rest) s = resolvealiases P rest (aliasPass P e.1 e.2 s) := rfl

theorem aliasPassGoCount_fst (P : List Char → List Char → Nat → Bool)
    (key value : List Char) : ∀ (fuel : Nat) (buf : List Char) (pos : Nat),
    (aliasPassGoCount P key value fuel buf pos).1
      = aliasPassGo P key value fuel buf pos := by
  intro fuel
  induction fuel with
  | zero => intro buf pos; rfl
  | succ fuel ih =>
    intro buf pos
    cases h : findFrom buf key pos with
    | none => simp [aliasPassGoCount, aliasPassGo, h]
    | some i =>
      cases hv : (is_valid_alias P key buf i).1 with
      | true => simp [aliasPassGoCount, aliasPassGo, h, hv, ih]
      | false => simp [aliasPassGoCount, aliasPassGo, h, hv, ih]

theorem is_valid_alias_ctx_length (P : List Char → List Char → Nat → Bool)
    (key context : List Char) (i : Nat) :
    (is_valid_alias P key context i).2.length ≤ context.length := by
  unfold is_valid_alias
  split
  · exact List.length_eraseIdx_le context (i - 1)
  · split
    · exact Nat.le_refl _
    · exact Nat.le_refl _

theorem substitute_length (buf : List Char) (i : Nat) (key value : List Char) :
    (substitute buf i key value).length ≤ buf.length + value.length := by
  simp only [substitute, List.length_append, List.length_take, List.length_drop]
  omega

/-- Each pass grows the buffer by at most `value.length` per performed
substitution. -/
theorem aliasPassGoCount_length (P : List Char → List Char → Nat → Bool)
    (key value : List Char) : ∀ (fuel : Nat) (buf : List Char) (pos : Nat),
    (aliasPassGoCount P key value fuel buf pos).1.length
      ≤ buf.length + (aliasPassGoCount P key value fuel buf pos).2 * value.length := by
  intro fuel
  induction fuel with
  | zero => intro buf pos; simp [aliasPassGoCount]
  | succ fuel ih =>
    intro buf pos
    cases h : findFrom buf key pos with
    | none => simp [aliasPassGoCount, h]
    | some i =>
      cases hv : (is_valid_alias P key buf i).1 with
      | true =>
        have hctx := is_valid_alias_ctx_length P key buf i
        have hsub := substitute_length (is_valid_alias P key buf i).2 i key value
        have hrec := ih (substitute (is_valid_alias P key buf i).2 i key value)
          (i + value.length)
        simp only [aliasPassGoCount, h, hv, if_true]
        have hmul : ((aliasPassGoCount P key value fuel
            (substitute (is_valid_alias P key buf i).2 i key value)
            (i + value.length)).2 + 1) * value.length
          = (aliasPassGoCount P key value fuel
            (substitute (is_valid_alias P key buf i).2 i key value)
            (i + value.length)).2 * value.length + value.length := Nat.succ_mul _ _
        rw [hmul]
        omega
      | false =>
        have hctx := is_valid_alias_ctx_length P key buf i
        have hrec := ih (is_valid_alias P key buf i).2 (i + key.length)
        simp only [aliasPassGoCount, h, hv, Bool.false_eq_true, if_false]
        omega

theorem resolveCounts_fst (P : List Char → List Char → Nat → Bool) :
    ∀ (table : List (List Char × List Char)) (s : List Char),
    (resolveCounts P table s).1 = resolvealiases P table s := by
  intro table
  induction table with
  | nil => intro s; rfl
  | cons e rest ih =>
    intro s
    simp only [resolveCounts, resolvealiases_cons]
    rw [aliasPassGoCount_fst P e.1 e.2 (s.length + 1) s 0]
    exact ih (aliasPass P e.1 e.2 s)

theorem resolveCounts_length (P : List Char → List Char → Nat → Bool) :
    ∀ (table : List (List Char × List Char)) (s : List Char),
    (resolveCounts P table s).1.length
      ≤ s.length + sumZip (resolveCounts P table s).2 table := by
  intro table
  induction table with
  | nil => intro s; simp [resolveCounts, sumZip]
  | cons e rest ih =>
    intro s
    have h1 := aliasPassGoCount_length P e.1 e.2 (s.length + 1) s 0
    have h2 := ih (aliasPassGoCount P e.1 e.2 (s.length + 1) s 0).1
    simp only [resolveCounts, sumZip]
    omega

theorem sumZip_le_sumVal : ∀ (counts : List Nat) (table : List (List Char × List Char)),
    (∀ c ∈ counts, c ≤ 1) → (∀ e ∈ table, e.2.length ≤ MAX_ALIAS_VAL_LENGTH) →
    sumZip counts table ≤ sumValLengths table
  | [], table, _, _ => by cases table <;> simp [sumZip, sumValLengths]
  | c :: cs, [], _, _ => by simp [sumZip, sumValLengths]
  | c :: cs, e :: es, hc, hv => by
    have h1 : c * e.2.length ≤ strnlen e.2 MAX_ALIAS_VAL_LENGTH := by
      have hc1 : c ≤ 1 := hc c (List.mem_cons_self c cs)
      have hv1 : e.2.length ≤ MAX_ALIAS_VAL_LENGTH := hv e (List.mem_cons_self e es)
      calc c * e.2.length ≤ 1 * e.2.length := Nat.mul_le_mul_right _ hc1
        _ = e.2.length := Nat.one_mul _
        _ = strnlen e.2 MAX_ALIAS_VAL_LENGTH := (min_eq_left hv1).symm
    have h2 := sumZip_le_sumVal cs es
      (fun c' h => hc c' (List.mem_cons_of_mem c h))
      (fun e' h => hv e' (List.mem_cons_of_mem e h))
    simp only [sumZip, sumValLengths, List.map_cons, List.sum_cons]
    simp only [sumValLengths] at h2
    omega

/-- C1 amended: the spec's bound assumes each alias value is substituted
in at most once; under that assumption (each pass performs at most one
substitution) — and provided every stored value fits the 200-character
bound the aggregate actually counts, which `alias` does not enforce —
the returned string's length is at most
`len(input) + total_alias_val_length`.  Without these assumptions the
bound fails (see the counterexample), so the fixed buffer of that size
(allocated moreover without the `+ 1` byte the terminator needs) does
not suffice in general. -/
theorem claim_C1_amended (P : List Char → List Char → Nat → Bool)
    (table : List (List Char × List Char)) (s : List Char)
    (hval : ∀ e ∈ table, e.2.length ≤ MAX_ALIAS_VAL_LENGTH)
    (honce : ∀ c ∈ (resolveCounts P table s).2, c ≤ 1) :
    (resolvealiases P table s).length ≤ s.length + sumValLengths table := by
  rw [← resolveCounts_fst P table s]
  calc (resolveCounts P table s).1.length
      ≤ s.length + sumZip (resolveCounts P table s).2 table :=
        resolveCounts_length P table s
    _ ≤ s.length + sumValLengths table :=
        Nat.add_le_add_left (sumZip_le_sumVal _ table honce hval) _

/-- C1 witness: a single alias substituted once stays within the bound. -/
theorem claim_C1_witness :
    (resolvealiases (fun _ _ _ => true) [("ls".toList, "ls --color".toList)]
        "ls".toList).length
      ≤ "ls".toList.length + sumValLengths [("ls".toList, "ls --color".toList)] :=
  claim_C1_amended (fun _ _ _ => true) [("ls".toList, "ls --color".toList)]
    "ls".toList (by decide) (by decide)

end Jsh
